import Mathlib

/-!
Shallow embedding of `export.py` (slack-exporter).

The program is sequential glue code around a remote API.  We embed its pure
data transformations directly; the effectful boundary is modelled explicitly:
  * the remote history endpoint is modelled as the list of pages it would
    serve, consumed in order;
  * timestamps rendered by `datetime.fromtimestamp(...).strftime(...)` are
    modelled by an abstract formatting function `fTs : String → String`
    (the claims never constrain the rendered value);
  * stdout diagnostics are modelled as an explicit list of printed lines;
  * the filesystem is modelled as a map from path to optional contents.
Python dictionaries keyed by strings are modelled as functions
`String → Option _` updated left to right, matching assignment order.
-/

namespace SlackExporter

/-- One entry of the user table, as built by `get_users`:
`{"name": ..., "real_name": ...}`. -/
structure UserEntry where
  name : String
  real_name : String
deriving DecidableEq, Repr

/-- The user table `Dict[str, Dict[str, str]]`, keyed by member id. -/
abbrev Users := String → Option UserEntry

/-- A raw member record as returned by `users.list`; `display_name` and
`real_name` are the fields of `member["profile"]`. -/
structure RawMember where
  id : String
  name : String
  display_name : String
  real_name : String
deriving DecidableEq, Repr

/-- Python truthiness of `a or b` on strings: `a` when non-empty, else `b`. -/
def pyOr (a b : String) : String :=
  if a = "" then b else a

/-- The table entry built for one member:
`{"name": member["profile"]["display_name"] or member["name"],
  "real_name": member["profile"]["real_name"]}`. -/
def userOfMember (m : RawMember) : UserEntry :=
  { name := pyOr m.display_name m.name, real_name := m.real_name }

/-- One dict assignment `users[member["id"]] = {...}`. -/
def updUser (t : Users) (m : RawMember) : Users :=
  fun k => if k = m.id then some (userOfMember m) else t k

/-- `get_users`: fold the member list into a dictionary keyed by `member["id"]`
(later records overwrite earlier ones, as Python dict assignment does). -/
def get_users (members : List RawMember) : Users :=
  members.foldl updUser (fun _ => none)

/-- A raw conversation record as returned by `conversations.list`.  Python
reads `conversation["user"]` / `["creator"]` / `["name"]` /
`["purpose"]["value"]` only inside the branch that needs them; modelling the
record as a total structure is harmless for the claims. -/
structure RawConversation where
  id : String
  is_im : Bool
  is_mpim : Bool
  is_channel : Bool
  is_group : Bool
  is_private : Bool
  user : String
  creator : String
  name : String
  purpose : String
deriving DecidableEq, Repr

/-- The resolved conversation entry `{title, desc, who}`. -/
structure ConvInfo where
  title : String
  desc : String
  who : String
deriving DecidableEq, Repr

/-- The four control-flow branches of the `if/elif/elif/else` in
`get_conversations`. -/
inductive ConvKind where
  | im
  | mpim
  | channelOrGroup
  | unknown
deriving DecidableEq, Repr

/-- Which branch of `get_conversations` a record reaches, following the
`if conversation["is_im"]: ... elif conversation["is_mpim"]: ...
elif conversation["is_channel"] or conversation["is_group"]: ... else: raise`
chain. -/
def convBranch (c : RawConversation) : ConvKind :=
  if c.is_im then ConvKind.im
  else if c.is_mpim then ConvKind.mpim
  else if c.is_channel || c.is_group then ConvKind.channelOrGroup
  else ConvKind.unknown

/-- The guard under which each branch of the chain fires, written out from
the raw flags (an `elif` only runs when every earlier test failed). -/
def branchFires (c : RawConversation) : ConvKind → Prop
  | ConvKind.im => c.is_im = true
  | ConvKind.mpim => c.is_im = false ∧ c.is_mpim = true
  | ConvKind.channelOrGroup =>
      c.is_im = false ∧ c.is_mpim = false ∧ (c.is_channel = true ∨ c.is_group = true)
  | ConvKind.unknown =>
      c.is_im = false ∧ c.is_mpim = false ∧ c.is_channel = false ∧ c.is_group = false

/-- `users[uid]` where a missing key raises `KeyError` (which propagates out
of `get_conversations`). -/
def lookupUser (users : Users) (uid : String) : Except String UserEntry :=
  match users uid with
  | some u => Except.ok u
  | none => Except.error ("KeyError: " ++ uid)

/-- The `who` string `f"{users[x]['name']} (ID {x})"`. -/
def whoString (u : UserEntry) (uid : String) : String :=
  u.name ++ " (ID " ++ uid ++ ")"

/-- The body of one iteration of `get_conversations`: builds the
`{title, desc, who}` entry for one record, raising on an unknown shape. -/
def convEntry (users : Users) (c : RawConversation) : Except String ConvInfo :=
  if c.is_im then
    match lookupUser users c.user with
    | Except.error e => Except.error e
    | Except.ok partner =>
      Except.ok
        { title := "@" ++ partner.name
          desc := "IM with " ++ partner.name
          who := whoString partner c.user }
  else if c.is_mpim then
    -- purpose = conversation["purpose"]["value"];
    -- if purpose.startswith("Group messaging with: "): purpose = purpose[22:]
    match lookupUser users c.creator with
    | Except.error e => Except.error e
    | Except.ok creator =>
      Except.ok
        { title := if c.purpose.startsWith "Group messaging with: "
                   then c.purpose.drop 22 else c.purpose
          desc := "Group IM: " ++
                  (if c.purpose.startsWith "Group messaging with: "
                   then c.purpose.drop 22 else c.purpose)
          who := whoString creator c.creator }
  else if c.is_channel || c.is_group then
    match lookupUser users c.creator with
    | Except.error e => Except.error e
    | Except.ok creator =>
      Except.ok
        { title := "#" ++ c.name
          desc := "Channel \"" ++ c.name ++ "\" (" ++
                  (if c.is_private then "private" else "public") ++ ") "
          who := whoString creator c.creator }
  else
    Except.error ("Unknown conversation type.\nConversation:\n" ++ c.id)

/-- `get_conversations`: builds the conversation dictionary, propagating the
first raised error. -/
def get_conversations (convs : List RawConversation) (users : Users) :
    Except String (String → Option ConvInfo) :=
  convs.foldlM
    (fun t c => do
      let e ← convEntry users c
      pure (fun k => if k = c.id then some e else t k))
    (fun _ => none)

/-- A raw message record as returned by `conversations.history`. -/
structure RawMsg where
  user : String
  text : String
  ts : String
deriving DecidableEq, Repr

/-- The exported message record. -/
structure Message where
  user : String
  text : String
  ts : String
  ts_readable : String
deriving DecidableEq, Repr

/-- The fallback author used on `KeyError`:
`{"real_name": f"Unknown <mojibake> ID {msg['user']}", "name": "Unknown"}`.
The source file contains the mojibake characters U+00E2 U+20AC U+201C between
"Unknown" and "ID"; the literal below reproduces them exactly. -/
def fallbackAuthor (uid : String) : UserEntry :=
  { name := "Unknown"
    real_name := "Unknown â€“ ID " ++ uid }

/-- The per-message transform of `_collect_messages`: resolve the author
(with the `except KeyError` fallback), copy text and timestamp, and render
the readable timestamp via the abstract formatter `fTs`. -/
def collectMsg (fTs : String → String) (users : Users) (msg : RawMsg) : Message :=
  let author := match users msg.user with
                | some a => a
                | none => fallbackAuthor msg.user
  { user := author.real_name ++ " (@" ++ author.name ++ ")"
    text := msg.text
    ts := msg.ts
    ts_readable := fTs msg.ts }

/-- One page of the history endpoint's response: the decoded JSON fields
`ok`, `error`, `messages` and `has_more`. -/
structure Page where
  okFlag : Bool
  errMsg : String
  messages : List RawMsg
  has_more : Bool
deriving DecidableEq, Repr

/-- `_collect_messages`: raises on a non-ok response, otherwise maps the
per-message transform over the page. -/
def collect_messages (fTs : String → String) (users : Users) (p : Page) :
    Except String (List Message) :=
  if p.okFlag then Except.ok (p.messages.map (collectMsg fTs users))
  else Except.error ("Received error response: " ++ p.errMsg)

/-- The stdout diagnostics `_collect_messages` prints for one raw message:
two lines when the author id is unknown, nothing otherwise. -/
def msgLogs (users : Users) (msg : RawMsg) : List String :=
  match users msg.user with
  | some _ => []
  | none => ["Unknown user: " ++ msg.user, "Message: " ++ msg.text]

/-- All stdout diagnostics `_collect_messages` prints for one page (none when
the ok-check raises first). -/
def collect_logs (users : Users) (p : Page) : List String :=
  if p.okFlag then (p.messages.map (msgLogs users)).flatten else []

/-- `messages_data["messages"][-1]["ts"]` on a non-empty page (only ever used
under a non-emptiness hypothesis; defaults to `""`). -/
def lastTs (p : Page) : String :=
  match p.messages.getLast? with
  | some m => m.ts
  | none => ""

/-- The pagination loop of `fetch_and_get_messages`, consuming the pages the
endpoint serves in order.  `cursor` is the current `payload["latest"]`
(`none` on the first request).  Returns the accumulated messages together
with the trace of cursors sent, one per request.  Errors model the Python
exceptions: `retrieve_data`'s ok-check, `_collect_messages`'s ok-check, and
the `IndexError` from `[-1]` on an empty page when `has_more` is true. -/
def fetchGo (fTs : String → String) (users : Users) (cursor : Option String) :
    List Page → Except String (List Message × List (Option String))
  | [] => Except.error "no response"
  | p :: rest =>
    if p.okFlag = false then Except.error ("Error: " ++ p.errMsg)
    else
      match collect_messages fTs users p with
      | Except.error e => Except.error e
      | Except.ok msgs =>
        if p.has_more then
          match p.messages.getLast? with
          | none => Except.error "IndexError: list index out of range"
          | some lastMsg =>
            match fetchGo fTs users (some lastMsg.ts) rest with
            | Except.error e => Except.error e
            | Except.ok (ms, cs) => Except.ok (msgs ++ ms, cursor :: cs)
        else Except.ok (msgs, [cursor])

/-- `fetch_and_get_messages`: first request carries no `latest` cursor. -/
def fetch_and_get_messages (fTs : String → String) (users : Users)
    (pages : List Page) : Except String (List Message × List (Option String)) :=
  fetchGo fTs users none pages

/-- `os.path.join("export", f"{title}_{now}.json")`. -/
def export_path (title nowStr : String) : String :=
  "export/" ++ title ++ "_" ++ nowStr ++ ".json"

/-- The export step of `main`: models the filesystem as a map from path to
optional contents.  If the target path exists the program prints and calls
`sys.exit(1)` without writing (returned exit code 1, filesystem unchanged);
otherwise it writes the file (exit code 0). -/
def exportStep (files : String → Option String) (title nowStr contents : String) :
    (String → Option String) × Nat :=
  let p := export_path title nowStr
  if (files p).isSome then (files, 1)
  else (fun q => if q = p then some contents else files q, 0)

/-! ### Mention rewriting

`replace_mentions` runs `re.findall(r"(<@((\w|\d)+)>)", text)` and, for each
match `(repl, usr_id, _)`, executes
`message["text"] = text.replace(repl, f"@{users[usr_id]['name']}")`
inside `try/except KeyError: pass` — note that `text` is the text read at the
top of the loop, not the updated `message["text"]`.

We model the regex scan character-by-character, as `re` does: try to match at
the current position; on success emit the match and resume after it, on
failure advance one character.  `(\w|\d)+` is a maximal non-empty run of word
characters followed by `>` (backtracking cannot help, since shrinking the run
only exposes another word character, never `>`).  Word characters are
modelled as ASCII alphanumerics plus underscore. -/

/-- A regex word character (`\w`/`\d`), ASCII fragment. -/
def isWordChar (c : Char) : Bool :=
  c.isAlphanum || c == '_'

/-- Split a maximal leading run of word characters from the rest. -/
def takeWordRun : List Char → List Char × List Char
  | [] => ([], [])
  | c :: cs =>
    if isWordChar c then
      match takeWordRun cs with
      | (run, rest) => (c :: run, rest)
    else ([], c :: cs)

/-- Try to match `<@((\w|\d)+)>` at the head of the input.  On success returns
(whole match, the id group, input after the match). -/
def matchMention : List Char → Option (List Char × List Char × List Char)
  | c1 :: c2 :: cs =>
    if c1 = '<' ∧ c2 = '@' then
      if (takeWordRun cs).1 = [] then none
      else if (takeWordRun cs).2.head? = some '>' then
        some ('<' :: '@' :: ((takeWordRun cs).1 ++ ['>']),
              (takeWordRun cs).1, (takeWordRun cs).2.tail)
      else none
    else none
  | _ => none

/-- The scan of `re.findall`, fuelled by the input length so the recursion is
structural (each step consumes at least one character). -/
def findMentionsF : Nat → List Char → List (List Char × List Char)
  | 0, _ => []
  | _ + 1, [] => []
  | fuel + 1, c :: cs =>
    match matchMention (c :: cs) with
    | some (tok, run, tail) => (tok, run) :: findMentionsF fuel tail
    | none => findMentionsF fuel cs

/-- `re.findall(r"(<@((\w|\d)+)>)", text)`, keeping the first two groups
(the third, the last repetition of the id group, is unused by the code). -/
def findMentions (s : List Char) : List (List Char × List Char) :=
  findMentionsF s.length s

/-- `str.replace`, fuelled: replace each non-overlapping occurrence of `old`,
left to right.  (The code only ever calls it with the non-empty `old` of a
regex match.) -/
def replaceAllF (old new : List Char) : Nat → List Char → List Char
  | 0, s => s
  | _ + 1, [] => []
  | fuel + 1, c :: cs =>
    if old ≠ [] ∧ old.isPrefixOf (c :: cs) then
      new ++ replaceAllF old new fuel ((c :: cs).drop old.length)
    else c :: replaceAllF old new fuel cs

/-- Python `text.replace(old, new)` (for the non-empty `old` used here). -/
def replaceAll (old new s : List Char) : List Char :=
  replaceAllF old new s.length s

/-- One iteration of the inner loop of `replace_mentions`: on a resolvable id,
`message["text"] = text.replace(repl, f"@{users[usr_id]['name']}")` — replacing
in the original `text`, discarding the accumulator; on `KeyError`, `pass`. -/
def applyMention (users : Users) (text : List Char) (acc : List Char)
    (m : List Char × List Char) : List Char :=
  match users (String.mk m.2) with
  | some u => replaceAll m.1 ('@' :: u.name.data) text
  | none => acc

/-- The new text of one message after `replace_mentions`' inner loop. -/
def replaceMentionsText (users : Users) (text : List Char) : List Char :=
  (findMentions text).foldl (applyMention users text) text

/-- `replace_mentions`: rewrites each message's `text` field in place
(modelled functionally as a map). -/
def replace_mentions (users : Users) (messages : List Message) : List Message :=
  messages.map
    (fun m => { m with text := String.mk (replaceMentionsText users m.text.data) })

/-! ### Structural facts about the regex scan -/

theorem takeWordRun_spec (cs : List Char) :
    (takeWordRun cs).1 ++ (takeWordRun cs).2 = cs ∧
      ∀ c ∈ (takeWordRun cs).1, isWordChar c = true := by
  induction cs with
  | nil => simp [takeWordRun]
  | cons c cs ih =>
    by_cases h : isWordChar c = true
    · obtain ⟨h1, h2⟩ := ih
      rcases htr : takeWordRun cs with ⟨run, rest⟩
      rw [htr] at h1 h2
      simp only [takeWordRun, h, if_true, htr]
      refine ⟨by simpa using h1, ?_⟩
      intro d hd
      rcases List.mem_cons.mp hd with rfl | hd
      · exact h
      · exact h2 d hd
    · simp [takeWordRun, h]

theorem matchMention_spec {s tok run tail : List Char}
    (h : matchMention s = some (tok, run, tail)) :
    s = tok ++ tail ∧ tok = '<' :: '@' :: (run ++ ['>']) ∧ run ≠ [] ∧
      ∀ c ∈ run, isWordChar c = true := by
  match s with
  | [] => simp [matchMention] at h
  | [c1] => simp [matchMention] at h
  | c1 :: c2 :: cs =>
    simp only [matchMention] at h
    split at h
    case isFalse => exact absurd h (by simp)
    case isTrue hc =>
      obtain ⟨rfl, rfl⟩ := hc
      split at h
      case isTrue => exact absurd h (by simp)
      case isFalse hrun =>
        split at h
        case isFalse => exact absurd h (by simp)
        case isTrue hhead =>
          simp only [Option.some.injEq, Prod.mk.injEq] at h
          obtain ⟨htok, hruneq, htaileq⟩ := h
          obtain ⟨ha, hw⟩ := takeWordRun_spec cs
          rcases htr : takeWordRun cs with ⟨run', rest'⟩
          rw [htr] at ha hw hrun hhead htok hruneq htaileq
          dsimp only at ha hw hrun hhead htok hruneq htaileq
          subst htok; subst hruneq; subst htaileq
          cases rest' with
          | nil => simp at hhead
          | cons r rs =>
            have hr : r = '>' := by simpa using hhead
            subst hr
            refine ⟨?_, rfl, hrun, hw⟩
            rw [← ha]
            simp

theorem matchMention_tail_lt {s tok run tail : List Char}
    (h : matchMention s = some (tok, run, tail)) : tail.length < s.length := by
  obtain ⟨hs, htok, _, _⟩ := matchMention_spec h
  have h1 : s.length = tok.length + tail.length := by rw [hs]; simp
  have h2 : 0 < tok.length := by rw [htok]; simp
  omega

theorem findMentionsF_congr : ∀ (f g : Nat) (s : List Char),
    s.length ≤ f → s.length ≤ g → findMentionsF f s = findMentionsF g s := by
  intro f
  induction f with
  | zero =>
    intro g s hf _
    have hs : s = [] := List.length_eq_zero.mp (Nat.le_zero.mp hf)
    subst hs
    cases g <;> simp [findMentionsF]
  | succ f ih =>
    intro g s hf hg
    cases s with
    | nil => cases g <;> simp [findMentionsF]
    | cons c cs =>
      cases g with
      | zero => simp at hg
      | succ g' =>
        rcases hm : matchMention (c :: cs) with _ | ⟨tok, run, tail⟩
        · simp only [findMentionsF, hm]
          simp only [List.length_cons] at hf hg
          exact ih g' cs (by omega) (by omega)
        · have hlt := matchMention_tail_lt hm
          simp only [findMentionsF, hm]
          simp only [List.length_cons] at hf hg hlt
          rw [ih g' tail (by omega) (by omega)]

theorem findMentions_nil : findMentions [] = [] := rfl

theorem findMentions_cons_some {c : Char} {cs tok run tail : List Char}
    (h : matchMention (c :: cs) = some (tok, run, tail)) :
    findMentions (c :: cs) = (tok, run) :: findMentions tail := by
  have hlt := matchMention_tail_lt h
  simp only [List.length_cons] at hlt
  unfold findMentions
  simp only [List.length_cons, findMentionsF, h]
  rw [findMentionsF_congr cs.length tail.length tail (by omega) (le_refl _)]

theorem findMentions_cons_none {c : Char} {cs : List Char}
    (h : matchMention (c :: cs) = none) :
    findMentions (c :: cs) = findMentions cs := by
  unfold findMentions
  simp only [List.length_cons, findMentionsF, h]

theorem replaceAllF_congr (old new : List Char) : ∀ (f g : Nat) (s : List Char),
    s.length ≤ f → s.length ≤ g → replaceAllF old new f s = replaceAllF old new g s := by
  intro f
  induction f with
  | zero =>
    intro g s hf _
    have hs : s = [] := List.length_eq_zero.mp (Nat.le_zero.mp hf)
    subst hs
    cases g <;> simp [replaceAllF]
  | succ f ih =>
    intro g s hf hg
    cases s with
    | nil => cases g <;> simp [replaceAllF]
    | cons c cs =>
      cases g with
      | zero => simp at hg
      | succ g' =>
        simp only [replaceAllF]
        simp only [List.length_cons] at hf hg
        by_cases h : old ≠ [] ∧ old.isPrefixOf (c :: cs) = true
        · rw [if_pos h, if_pos h]
          have hold : 1 ≤ old.length := by
            cases old with
            | nil => exact absurd rfl h.1
            | cons _ _ => simp
          have hdl : ((c :: cs).drop old.length).length = cs.length + 1 - old.length := by
            rw [List.length_drop]
            simp
          rw [ih g' ((c :: cs).drop old.length) (by omega) (by omega)]
        · rw [if_neg h, if_neg h]
          rw [ih g' cs (by omega) (by omega)]

theorem replaceAll_nil (old new : List Char) : replaceAll old new [] = [] := rfl

theorem replaceAll_pos {old : List Char} (new : List Char) {c : Char} {cs : List Char}
    (h1 : old ≠ []) (h2 : old.isPrefixOf (c :: cs) = true) :
    replaceAll old new (c :: cs) = new ++ replaceAll old new ((c :: cs).drop old.length) := by
  have hold : 1 ≤ old.length := by
    cases old with
    | nil => exact absurd rfl h1
    | cons _ _ => simp
  unfold replaceAll
  simp only [List.length_cons, replaceAllF, h1, h2, and_true, if_true,
    ne_eq, not_false_eq_true]
  congr 1
  have hdl : ((c :: cs).drop old.length).length = cs.length + 1 - old.length := by
    rw [List.length_drop]; simp
  exact replaceAllF_congr old new cs.length _ _ (by omega) (by omega)

theorem replaceAll_neg {old new : List Char} {c : Char} {cs : List Char}
    (h : ¬(old ≠ [] ∧ old.isPrefixOf (c :: cs) = true)) :
    replaceAll old new (c :: cs) = c :: replaceAll old new cs := by
  unfold replaceAll
  simp only [List.length_cons, replaceAllF]
  rw [if_neg (by simpa using h)]

theorem findMentionsF_shape : ∀ (f : Nat) (s tok run : List Char), s.length ≤ f →
    (tok, run) ∈ findMentionsF f s →
    tok = '<' :: '@' :: (run ++ ['>']) ∧ run ≠ [] ∧ ∀ c ∈ run, isWordChar c = true := by
  intro f
  induction f with
  | zero => intro s tok run _ h; simp [findMentionsF] at h
  | succ f ih =>
    intro s tok run hf h
    cases s with
    | nil => simp [findMentionsF] at h
    | cons c cs =>
      rcases hm : matchMention (c :: cs) with _ | ⟨tok', run', tail⟩
      · rw [findMentionsF, hm] at h
        simp only [List.length_cons] at hf
        exact ih cs tok run (by omega) h
      · rw [findMentionsF, hm] at h
        rcases List.mem_cons.mp h with heq | hmem
        · obtain ⟨hs, htok, hrun, hw⟩ := matchMention_spec hm
          obtain ⟨h1, h2⟩ := Prod.mk.injEq .. ▸ heq
          subst h1; subst h2
          exact ⟨htok, hrun, hw⟩
        · have hlt := matchMention_tail_lt hm
          simp only [List.length_cons] at hf hlt
          exact ih tail tok run (by omega) hmem

theorem findMentions_shape {s tok run : List Char} (h : (tok, run) ∈ findMentions s) :
    tok = '<' :: '@' :: (run ++ ['>']) ∧ run ≠ [] ∧ ∀ c ∈ run, isWordChar c = true :=
  findMentionsF_shape s.length s tok run (le_refl _) h

theorem findMentionsF_isInfix : ∀ (f : Nat) (s tok run : List Char), s.length ≤ f →
    (tok, run) ∈ findMentionsF f s → tok <:+: s := by
  intro f
  induction f with
  | zero => intro s tok run _ h; simp [findMentionsF] at h
  | succ f ih =>
    intro s tok run hf h
    cases s with
    | nil => simp [findMentionsF] at h
    | cons c cs =>
      rcases hm : matchMention (c :: cs) with _ | ⟨tok', run', tail⟩
      · rw [findMentionsF, hm] at h
        simp only [List.length_cons] at hf
        exact List.infix_cons (ih cs tok run (by omega) h)
      · rw [findMentionsF, hm] at h
        obtain ⟨hs, _, _, _⟩ := matchMention_spec hm
        rcases List.mem_cons.mp h with heq | hmem
        · obtain ⟨h1, _⟩ := Prod.mk.injEq .. ▸ heq
          subst h1
          exact ⟨[], tail, by rw [hs]; simp⟩
        · have hlt := matchMention_tail_lt hm
          simp only [List.length_cons] at hf hlt
          have htail : tok <:+: tail := ih tail tok run (by omega) hmem
          obtain ⟨p, q, hpq⟩ := htail
          exact ⟨tok' ++ p, q, by rw [hs, ← hpq]; simp⟩

theorem findMentions_isInfix {s tok run : List Char} (h : (tok, run) ∈ findMentions s) :
    tok <:+: s :=
  findMentionsF_isInfix s.length s tok run (le_refl _) h

/-- A word run followed by `>` is a prefix of another only when the runs are
equal: the run cannot contain `>` and cannot end early. -/
theorem wordRunEqOfPref : ∀ (A B : List Char), (∀ c ∈ A, isWordChar c = true) →
    (∀ c ∈ B, isWordChar c = true) → (A ++ ['>']) <+: (B ++ ['>']) → A = B := by
  intro A
  induction A with
  | nil =>
    intro B _ hB h
    cases B with
    | nil => rfl
    | cons b B' =>
      obtain ⟨t, ht⟩ := h
      simp only [List.nil_append, List.cons_append] at ht
      have hb : b = '>' := by
        have := congrArg List.head? ht
        simpa using this.symm
      have := hB b (List.mem_cons_self b B')
      rw [hb] at this
      simp [isWordChar] at this
  | cons a A' ih =>
    intro B hA hB h
    cases B with
    | nil =>
      obtain ⟨t, ht⟩ := h
      simp only [List.cons_append, List.nil_append] at ht
      have ha : a = '>' := by
        have := congrArg List.head? ht
        simpa using this
      have := hA a (List.mem_cons_self a A')
      rw [ha] at this
      simp [isWordChar] at this
    | cons b B' =>
      obtain ⟨t, ht⟩ := h
      simp only [List.cons_append] at ht
      have h1 : a = b := by
        have := congrArg List.head? ht
        simpa using this
      have h2 : (A' ++ ['>']) ++ t = B' ++ ['>'] := by
        have := congrArg List.tail ht
        simpa using this
      subst h1
      have := ih B' (fun c hc => hA c (List.mem_cons_of_mem a hc))
        (fun c hc => hB c (List.mem_cons_of_mem a hc)) ⟨t, h2⟩
      rw [this]

/-- `<` does not occur past the head of a mention token. -/
theorem ltNotMemTokTail {A : List Char} (hA : ∀ c ∈ A, isWordChar c = true) :
    '<' ∉ ('@' :: (A ++ ['>'])) := by
  intro h
  rcases List.mem_cons.mp h with h | h
  · exact absurd h (by decide)
  · rcases List.mem_append.mp h with h | h
    · have := hA '<' h
      simp [isWordChar] at this
    · simp at h

/-- If `old` is a prefix (as `isPrefixOf`) of a cons cell, its head is that
cell's head. -/
theorem prefHead {old : List Char} {x : Char} {xs : List Char}
    (hne : old ≠ []) (h : old.isPrefixOf (x :: xs) = true) : old.head? = some x := by
  cases old with
  | nil => exact absurd rfl hne
  | cons o os =>
    obtain ⟨t, ht⟩ := List.isPrefixOf_iff_prefix.mp h
    simp only [List.cons_append] at ht
    have := congrArg List.head? ht
    simpa using this

/-- `str.replace` copies a region verbatim when no occurrence of `old` starts
inside it. -/
theorem replaceAll_passthrough (old new : List Char) : ∀ (u q : List Char),
    (∀ k, k < u.length → ¬(old.isPrefixOf (u.drop k ++ q) = true)) →
    replaceAll old new (u ++ q) = u ++ replaceAll old new q := by
  intro u
  induction u with
  | nil => intro q _; simp
  | cons c u' ih =>
    intro q h
    have h0 : ¬(old.isPrefixOf (c :: (u' ++ q)) = true) := by
      have := h 0 (by simp)
      simpa using this
    rw [List.cons_append, replaceAll_neg (fun hand => h0 hand.2)]
    rw [ih q (fun k hk => by
      have := h (k + 1) (by simp only [List.length_cons]; omega)
      simpa using this)]
    simp

/-- Replacing every occurrence of one mention token leaves any occurrence of a
different mention token intact: occurrences of distinct tokens cannot overlap,
because `<` occurs in a token only at its head. -/
theorem tokInfixReplaceAll {A B new : List Char}
    (hA : ∀ c ∈ A, isWordChar c = true) (hB : ∀ c ∈ B, isWordChar c = true)
    (hne : A ≠ B) :
    ∀ (n : Nat) (s : List Char), s.length ≤ n →
      ('<' :: '@' :: (A ++ ['>'])) <:+: s →
      ('<' :: '@' :: (A ++ ['>'])) <:+: replaceAll ('<' :: '@' :: (B ++ ['>'])) new s := by
  intro n
  induction n with
  | zero =>
    intro s hs hinf
    have h0 : s = [] := List.length_eq_zero.mp (Nat.le_zero.mp hs)
    subst h0
    exact absurd (List.infix_nil.mp hinf) (by simp)
  | succ n ih =>
    intro s hs hinf
    cases s with
    | nil => exact absurd (List.infix_nil.mp hinf) (by simp)
    | cons c cs =>
      by_cases hp : ('<' :: '@' :: (B ++ ['>'])).isPrefixOf (c :: cs) = true
      · rw [replaceAll_pos new (by simp) hp]
        obtain ⟨p, q, hpq⟩ := hinf
        have hBpre : ('<' :: '@' :: (B ++ ['>'])) <+: (c :: cs) :=
          List.isPrefixOf_iff_prefix.mp hp
        have hppre : p <+: (c :: cs) :=
          ⟨('<' :: '@' :: (A ++ ['>'])) ++ q, by rw [← hpq]; simp⟩
        have hlen : ('<' :: '@' :: (B ++ ['>'])).length ≤ p.length := by
          by_contra hlt
          push_neg at hlt
          cases p with
          | nil =>
            have hApre : ('<' :: '@' :: (A ++ ['>'])) <+: (c :: cs) :=
              ⟨q, by rw [← hpq]; simp⟩
            rcases Nat.le_total ('<' :: '@' :: (A ++ ['>'])).length
                ('<' :: '@' :: (B ++ ['>'])).length with hle | hle
            · obtain ⟨t, ht⟩ := List.prefix_of_prefix_length_le hApre hBpre hle
              have ht' : (A ++ ['>']) ++ t = B ++ ['>'] := by
                have := congrArg List.tail (congrArg List.tail ht)
                simpa using this
              exact hne (wordRunEqOfPref A B hA hB ⟨t, ht'⟩)
            · obtain ⟨t, ht⟩ := List.prefix_of_prefix_length_le hBpre hApre hle
              have ht' : (B ++ ['>']) ++ t = A ++ ['>'] := by
                have := congrArg List.tail (congrArg List.tail ht)
                simpa using this
              exact hne (wordRunEqOfPref B A hB hA ⟨t, ht'⟩).symm
          | cons p0 p' =>
            have hsp : (c :: cs)[(p0 :: p').length]? = some '<' := by
              rw [← hpq, List.append_assoc,
                List.getElem?_append_right (le_refl (p0 :: p').length)]
              simp
            have hBtake : ('<' :: '@' :: (B ++ ['>'])) =
                (c :: cs).take ('<' :: '@' :: (B ++ ['>'])).length :=
              List.prefix_iff_eq_take.mp hBpre
            have hsp2 : ('<' :: '@' :: (B ++ ['>']))[(p0 :: p').length]? = some '<' := by
              rw [hBtake, List.getElem?_take, if_pos hlt]
              exact hsp
            have hmem : '<' ∈ ('@' :: (B ++ ['>'])) := by
              have hlen0 : (p0 :: p').length = p'.length + 1 := by simp
              rw [hlen0, List.getElem?_cons_succ] at hsp2
              exact List.getElem?_mem hsp2
            exact ltNotMemTokTail hB hmem
        obtain ⟨p', hp'⟩ := List.prefix_of_prefix_length_le hBpre hppre hlen
        have hdrop : (c :: cs).drop ('<' :: '@' :: (B ++ ['>'])).length =
            p' ++ ('<' :: '@' :: (A ++ ['>'])) ++ q := by
          rw [← hpq, ← hp', List.append_assoc, List.append_assoc, List.drop_left]
          simp [List.append_assoc]
        have hlds : ((c :: cs).drop ('<' :: '@' :: (B ++ ['>'])).length).length ≤ n := by
          rw [List.length_drop]
          simp only [List.length_cons] at hs ⊢
          omega
        obtain ⟨p2, q2, hp2⟩ := ih _ hlds ⟨p', q, hdrop.symm⟩
        exact ⟨new ++ p2, q2, by rw [← hp2]; simp⟩
      · obtain ⟨p, q, hpq⟩ := hinf
        cases p with
        | cons p0 p' =>
          rw [replaceAll_neg (fun hand => hp hand.2)]
          simp only [List.cons_append, List.append_assoc] at hpq
          have hc0 : p0 = c := by
            have := congrArg List.head? hpq
            simpa using this
          have hcs : p' ++ ('<' :: '@' :: (A ++ ['>'])) ++ q = cs := by
            have := congrArg List.tail hpq
            simpa [List.append_assoc] using this
          obtain ⟨p2, q2, hp2⟩ :=
            ih cs (by simp only [List.length_cons] at hs; omega) ⟨p', q, hcs⟩
          exact ⟨c :: p2, q2, by rw [← hp2]; simp⟩
        | nil =>
          simp only [List.nil_append] at hpq
          rw [← hpq]
          rw [replaceAll_passthrough _ new _ q ?_]
          · exact ⟨[], replaceAll ('<' :: '@' :: (B ++ ['>'])) new q, by simp⟩
          · intro k hk
            cases k with
            | zero =>
              rw [List.drop_zero, hpq]
              exact hp
            | succ k' =>
              intro hpref
              have hne2 : ('<' :: '@' :: (A ++ ['>'])).drop (k' + 1) ≠ [] := by
                intro h0
                have := congrArg List.length h0
                rw [List.length_drop] at this
                simp only [List.length_nil] at this
                omega
              obtain ⟨d, ds, hd⟩ := List.exists_cons_of_ne_nil hne2
              rw [hd, List.cons_append] at hpref
              have hhd := prefHead (by simp) hpref
              have hdlt : d = '<' := by simpa using hhd.symm
              have hdm : d ∈ ('@' :: (A ++ ['>'])) := by
                have hm1 : d ∈ ('<' :: '@' :: (A ++ ['>'])).drop (k' + 1) := by
                  rw [hd]
                  exact List.mem_cons_self d ds
                rw [List.drop_succ_cons] at hm1
                exact List.mem_of_mem_drop hm1
              rw [hdlt] at hdm
              exact ltNotMemTokTail hA hdm

/-- The inner loop of `replace_mentions` either leaves the accumulator alone
(all lookups failed) or ends on the replacement for the last resolvable match,
always applied to the original `text`. -/
theorem foldl_applyMention_cases (users : Users) (text : List Char) :
    ∀ (l : List (List Char × List Char)) (acc : List Char),
      l.foldl (applyMention users text) acc = acc ∨
      ∃ tok run u, (tok, run) ∈ l ∧ users (String.mk run) = some u ∧
        l.foldl (applyMention users text) acc =
          replaceAll tok ('@' :: u.name.data) text := by
  intro l
  induction l with
  | nil => intro acc; left; rfl
  | cons m l' ih =>
    intro acc
    rcases m with ⟨tok0, run0⟩
    rcases hu : users (String.mk run0) with _ | u0
    · have hstep : applyMention users text acc (tok0, run0) = acc := by
        simp [applyMention, hu]
      rcases ih (applyMention users text acc (tok0, run0)) with h | ⟨tok, run, u, hm, hu2, hres⟩
      · left
        rw [List.foldl_cons, h, hstep]
      · right
        exact ⟨tok, run, u, List.mem_cons_of_mem _ hm, hu2, by rw [List.foldl_cons, hres]⟩
    · have hstep : applyMention users text acc (tok0, run0) =
          replaceAll tok0 ('@' :: u0.name.data) text := by
        simp [applyMention, hu]
      rcases ih (applyMention users text acc (tok0, run0)) with h | ⟨tok, run, u, hm, hu2, hres⟩
      · right
        exact ⟨tok0, run0, u0, List.mem_cons_self _ _, hu,
          by rw [List.foldl_cons, h, hstep]⟩
      · right
        exact ⟨tok, run, u, List.mem_cons_of_mem _ hm, hu2, by rw [List.foldl_cons, hres]⟩

/-! ### Pagination runs -/

/-- A well-formed pagination run: every page before the last is ok, reports
more data and is non-empty; the loop then consumes every page, concatenates
the per-page transforms in order, and sends as cursor the timestamp of the
last-listed message of the previous page. -/
theorem fetchGo_pages (fTs : String → String) (users : Users) :
    ∀ (mid : List Page) (lastp : Page) (cursor : Option String),
      (∀ p ∈ mid, p.okFlag = true ∧ p.has_more = true ∧ p.messages ≠ []) →
      lastp.okFlag = true → lastp.has_more = false →
      fetchGo fTs users cursor (mid ++ [lastp]) =
        Except.ok
          (((mid ++ [lastp]).map (fun p => p.messages.map (collectMsg fTs users))).flatten,
            cursor :: mid.map (fun p => some (lastTs p))) := by
  intro mid
  induction mid with
  | nil =>
    intro lastp cursor _ hok hmore
    simp [fetchGo, collect_messages, hok, hmore]
  | cons p mid' ih =>
    intro lastp cursor hmid hok hmore
    obtain ⟨hpok, hpmore, hpne⟩ := hmid p (List.mem_cons_self p mid')
    obtain ⟨lm, hlm⟩ :=
      Option.isSome_iff_exists.mp ((List.getLast?_isSome (l := p.messages)).mpr hpne)
    have hrec := ih lastp (some lm.ts)
      (fun q hq => hmid q (List.mem_cons_of_mem p hq)) hok hmore
    have hts : lastTs p = lm.ts := by simp [lastTs, hlm]
    simp [fetchGo, collect_messages, hpok, hpmore, hlm, hrec, hts]

/-- Reaching a page with zero messages whose "has more" flag is true makes
the loop raise (the `[-1]` index on the empty list) instead of iterating. -/
theorem fetchGo_empty_page_error (fTs : String → String) (users : Users) :
    ∀ (mid : List Page) (p : Page) (rest : List Page) (cursor : Option String),
      (∀ q ∈ mid, q.okFlag = true ∧ q.has_more = true ∧ q.messages ≠ []) →
      p.okFlag = true → p.messages = [] → p.has_more = true →
      fetchGo fTs users cursor (mid ++ p :: rest) =
        Except.error "IndexError: list index out of range" := by
  intro mid
  induction mid with
  | nil =>
    intro p rest cursor _ hok hempty hmore
    simp [fetchGo, collect_messages, hok, hempty, hmore]
  | cons q mid' ih =>
    intro p rest cursor hmid hok hempty hmore
    obtain ⟨hqok, hqmore, hqne⟩ := hmid q (List.mem_cons_self q mid')
    obtain ⟨lm, hlm⟩ :=
      Option.isSome_iff_exists.mp ((List.getLast?_isSome (l := q.messages)).mpr hqne)
    have hrec := ih p rest (some lm.ts)
      (fun r hr => hmid r (List.mem_cons_of_mem q hr)) hok hempty hmore
    simp [fetchGo, collect_messages, hqok, hqmore, hlm, hrec]

/-! ### User-table lookups -/

theorem foldl_updUser_of_ne (k : String) :
    ∀ (ms : List RawMember) (t : Users), (∀ m ∈ ms, m.id ≠ k) →
      (ms.foldl updUser t) k = t k := by
  intro ms
  induction ms with
  | nil => intro t _; rfl
  | cons x ms' ih =>
    intro t h
    rw [List.foldl_cons, ih (updUser t x) (fun m hm => h m (List.mem_cons_of_mem x hm))]
    have hx : x.id ≠ k := h x (List.mem_cons_self x ms')
    unfold updUser
    rw [if_neg (fun hk : k = x.id => hx hk.symm)]

theorem foldl_updUser_lookup :
    ∀ (ms : List RawMember) (t : Users) (m : RawMember), m ∈ ms →
      (∀ m' ∈ ms, m'.id = m.id → m' = m) →
      (ms.foldl updUser t) m.id = some (userOfMember m) := by
  intro ms
  induction ms with
  | nil => intro t m hm; exact absurd hm (List.not_mem_nil m)
  | cons x ms' ih =>
    intro t m hm huniq
    by_cases hmem : m ∈ ms'
    · rw [List.foldl_cons]
      exact ih (updUser t x) m hmem
        (fun m' hm' he => huniq m' (List.mem_cons_of_mem x hm') he)
    · have hx : m = x := by
        rcases List.mem_cons.mp hm with h | h
        · exact h
        · exact absurd h hmem
      have hne : ∀ m' ∈ ms', m'.id ≠ m.id := by
        intro m' hm' he
        exact hmem (huniq m' (List.mem_cons_of_mem x hm') he ▸ hm')
      rw [List.foldl_cons, foldl_updUser_of_ne m.id ms' (updUser t x) hne]
      simp [updUser, hx]

/-! ### Claims -/

/-- C5: for every raw member record, the user table built by `get_users`
resolves the short name to the profile's display-name field when that field
is non-empty and to the member's bare account name otherwise, and always
carries the profile's real-name field over verbatim.  (The record's id must
be unique in the listing for the lookup to retrieve this record's entry:
Python dict assignment lets a duplicate id overwrite earlier records.) -/
theorem C5_get_users_resolution (members : List RawMember) (m : RawMember)
    (hm : m ∈ members) (huniq : ∀ m' ∈ members, m'.id = m.id → m' = m) :
    get_users members m.id =
      some { name := if m.display_name ≠ "" then m.display_name else m.name
             real_name := m.real_name } := by
  rw [get_users, foldl_updUser_lookup members _ m hm huniq]
  unfold userOfMember pyOr
  by_cases h : m.display_name = "" <;> simp [h]

theorem C5_get_users_resolution_witness :
    get_users [⟨"U1", "bob", "", "Bob Smith"⟩, ⟨"U2", "ann", "Annie", "Ann B"⟩] "U2" =
      some { name := "Annie", real_name := "Ann B" } ∧
    get_users [⟨"U1", "bob", "", "Bob Smith"⟩, ⟨"U2", "ann", "Annie", "Ann B"⟩] "U1" =
      some { name := "bob", real_name := "Bob Smith" } := by
  constructor
  · have h := C5_get_users_resolution
      [⟨"U1", "bob", "", "Bob Smith"⟩, ⟨"U2", "ann", "Annie", "Ann B"⟩]
      ⟨"U2", "ann", "Annie", "Ann B"⟩ (by simp) (by decide)
    simpa using h
  · have h := C5_get_users_resolution
      [⟨"U1", "bob", "", "Bob Smith"⟩, ⟨"U2", "ann", "Annie", "Ann B"⟩]
      ⟨"U1", "bob", "", "Bob Smith"⟩ (by simp) (by decide)
    simpa using h

/-- C4: for every raw conversation record, exactly one of the four branches
of the `if/elif/elif/else` chain in the conversation-table builder fires
(the guards are mutually exclusive and exhaustive, and agree with the chain's
control flow), and a record satisfying none of the three recognized shapes
makes the builder raise the unknown-conversation-kind error instead of
producing an entry. -/
theorem C4_conversation_kind_dispatch (c : RawConversation) (users : Users) :
    (∃! k : ConvKind, branchFires c k) ∧
    (∀ k : ConvKind, branchFires c k ↔ convBranch c = k) ∧
    (branchFires c ConvKind.unknown →
      convEntry users c =
        Except.error ("Unknown conversation type.\nConversation:\n" ++ c.id) ∧
      get_conversations [c] users =
        Except.error ("Unknown conversation type.\nConversation:\n" ++ c.id)) := by
  have hiff : ∀ k : ConvKind, branchFires c k ↔ convBranch c = k := by
    intro k
    cases k <;> unfold branchFires convBranch <;>
      cases h1 : c.is_im <;> cases h2 : c.is_mpim <;>
      cases h3 : c.is_channel <;> cases h4 : c.is_group <;> simp
  refine ⟨⟨convBranch c, (hiff _).mpr rfl, fun k hk => ((hiff k).mp hk).symm⟩, hiff, ?_⟩
  intro hu
  obtain ⟨h1, h2, h3, h4⟩ := hu
  have hentry : convEntry users c =
      Except.error ("Unknown conversation type.\nConversation:\n" ++ c.id) := by
    unfold convEntry
    rw [h1, h2, h3, h4]
    simp
  refine ⟨hentry, ?_⟩
  unfold get_conversations
  simp [List.foldlM, hentry]

theorem C4_conversation_kind_dispatch_witness :
    branchFires
      { id := "C9", is_im := false, is_mpim := false, is_channel := false
        is_group := false, is_private := false, user := "", creator := ""
        name := "", purpose := "" } ConvKind.unknown ∧
    convEntry (fun _ => none)
      { id := "C9", is_im := false, is_mpim := false, is_channel := false
        is_group := false, is_private := false, user := "", creator := ""
        name := "", purpose := "" } =
      Except.error ("Unknown conversation type.\nConversation:\n" ++ "C9") := by
  refine ⟨by simp [branchFires], ?_⟩
  exact ((C4_conversation_kind_dispatch
    { id := "C9", is_im := false, is_mpim := false, is_channel := false
      is_group := false, is_private := false, user := "", creator := ""
      name := "", purpose := "" } (fun _ => none)).2.2 (by simp [branchFires])).1

/-- C3: the export step never overwrites.  If a file with the derived name
`<title>_<timestamp>.json` already exists under the export directory, the
step exits with code 1 and leaves the filesystem (hence the pre-existing
file's contents) unchanged; consequently a second export with identical
title and colliding timestamp fails right after a successful first one,
leaving the first file's contents in place. -/
theorem C3_export_never_overwrites (files : String → Option String)
    (title nowStr contents contents2 : String) :
    ((files (export_path title nowStr)).isSome = true →
      exportStep files title nowStr contents = (files, 1)) ∧
    ((exportStep files title nowStr contents).2 = 0 →
      (exportStep (exportStep files title nowStr contents).1 title nowStr contents2).2 = 1 ∧
      (exportStep (exportStep files title nowStr contents).1 title nowStr contents2).1 =
        (exportStep files title nowStr contents).1) := by
  unfold exportStep
  by_cases h : (files (export_path title nowStr)).isSome = true
  · simp [h]
  · simp [h]

theorem C3_export_never_overwrites_witness :
    (exportStep
      (fun q => if q = export_path "general" "2021-01-01_00-00-00" then some "old" else none)
      "general" "2021-01-01_00-00-00" "new").2 = 1 ∧
    (exportStep
      (fun q => if q = export_path "general" "2021-01-01_00-00-00" then some "old" else none)
      "general" "2021-01-01_00-00-00" "new").1
      (export_path "general" "2021-01-01_00-00-00") = some "old" := by
  have h := (C3_export_never_overwrites
    (fun q => if q = export_path "general" "2021-01-01_00-00-00" then some "old" else none)
    "general" "2021-01-01_00-00-00" "new" "x").1 (by simp)
  rw [h]
  simp

/-- C10: `replace_mentions` preserves the length and order of the message
list and leaves the `user`, `ts` and `ts_readable` fields of every message
unchanged; the only field it may modify is `text`. -/
theorem C10_replace_mentions_frame (users : Users) (messages : List Message) :
    (replace_mentions users messages).length = messages.length ∧
    ∀ i : Nat,
      ((replace_mentions users messages)[i]?).map Message.user =
        (messages[i]?).map Message.user ∧
      ((replace_mentions users messages)[i]?).map Message.ts =
        (messages[i]?).map Message.ts ∧
      ((replace_mentions users messages)[i]?).map Message.ts_readable =
        (messages[i]?).map Message.ts_readable := by
  unfold replace_mentions
  refine ⟨by simp, ?_⟩
  intro i
  refine ⟨?_, ?_, ?_⟩ <;>
    · rw [List.getElem?_map]
      cases messages[i]? with
      | none => rfl
      | some m => rfl

/-- C9: a raw message whose user id is absent from the user table does not
abort message collection: the page still decodes to one `Message` per raw
record, the unknown author becomes the placeholder
`"Unknown <mojibake> ID <id> (@Unknown)"` with the text kept, and the
diagnostic line `"Unknown user: <id>"` is printed. -/
theorem C9_unknown_author_degrades (fTs : String → String) (users : Users)
    (p : Page) (msg : RawMsg) (hok : p.okFlag = true)
    (hmem : msg ∈ p.messages) (hunknown : users msg.user = none) :
    collect_messages fTs users p = Except.ok (p.messages.map (collectMsg fTs users)) ∧
    (p.messages.map (collectMsg fTs users)).length = p.messages.length ∧
    (collectMsg fTs users msg).user = "Unknown â€“ ID " ++ msg.user ++ " (@Unknown)" ∧
    (collectMsg fTs users msg).text = msg.text ∧
    ("Unknown user: " ++ msg.user) ∈ collect_logs users p := by
  refine ⟨by simp [collect_messages, hok], by simp, ?_, by simp [collectMsg], ?_⟩
  · simp [collectMsg, hunknown, fallbackAuthor, String.append_assoc]
  · rw [collect_logs, if_pos (by rw [hok])]
    exact List.mem_flatten.mpr
      ⟨msgLogs users msg, List.mem_map_of_mem _ hmem, by simp [msgLogs, hunknown]⟩

theorem C9_unknown_author_degrades_witness :
    collect_messages (fun s => s) (fun _ => none) ⟨true, "", [⟨"U9", "hello", "5"⟩], false⟩ =
      Except.ok [⟨"Unknown â€“ ID U9 (@Unknown)", "hello", "5", "5"⟩] ∧
    ("Unknown user: U9") ∈ collect_logs (fun _ => none) ⟨true, "", [⟨"U9", "hello", "5"⟩], false⟩ := by
  have h := C9_unknown_author_degrades (fun s => s) (fun _ => none)
    ⟨true, "", [⟨"U9", "hello", "5"⟩], false⟩ ⟨"U9", "hello", "5"⟩ rfl (by simp) rfl
  refine ⟨?_, by simpa using h.2.2.2.2⟩
  rw [h.1]
  rfl

/-- C2: a finite pagination run whose last page reports "has more" = false
(every earlier page being ok, non-empty and reporting more data) terminates
with the concatenation of the per-page message lists in page order; the
accumulated count is the sum of the per-page counts, the first request
carries no cursor and each later request carries the timestamp of the
oldest (last-listed) message of the previous page. -/
theorem C2_pagination_collects_all (fTs : String → String) (users : Users)
    (mid : List Page) (lastp : Page)
    (hmid : ∀ p ∈ mid, p.okFlag = true ∧ p.has_more = true ∧ p.messages ≠ [])
    (hok : lastp.okFlag = true) (hmore : lastp.has_more = false) :
    ∃ ms cursors,
      fetch_and_get_messages fTs users (mid ++ [lastp]) = Except.ok (ms, cursors) ∧
      ms = ((mid ++ [lastp]).map (fun p => p.messages.map (collectMsg fTs users))).flatten ∧
      ms.length = ((mid ++ [lastp]).map (fun p => p.messages.length)).sum ∧
      cursors = none :: mid.map (fun p => some (lastTs p)) := by
  refine ⟨_, _, fetchGo_pages fTs users mid lastp none hmid hok hmore, rfl, ?_, rfl⟩
  simp [Function.comp_def]

theorem C2_pagination_collects_all_witness :
    fetch_and_get_messages (fun s => s) (fun _ => none)
      [⟨true, "", [⟨"u", "a", "9"⟩, ⟨"u", "b", "8"⟩], true⟩,
       ⟨true, "", [⟨"u", "c", "7"⟩], false⟩] =
      Except.ok
        ([⟨"Unknown â€“ ID u (@Unknown)", "a", "9", "9"⟩,
          ⟨"Unknown â€“ ID u (@Unknown)", "b", "8", "8"⟩,
          ⟨"Unknown â€“ ID u (@Unknown)", "c", "7", "7"⟩],
         [none, some "8"]) := by
  obtain ⟨ms, cursors, heq, hms, _, hcs⟩ :=
    C2_pagination_collects_all (fun s => s) (fun _ => none)
      [⟨true, "", [⟨"u", "a", "9"⟩, ⟨"u", "b", "8"⟩], true⟩]
      ⟨true, "", [⟨"u", "c", "7"⟩], false⟩
      (by intro p hp; simp at hp; subst hp; exact ⟨rfl, rfl, by simp⟩) rfl rfl
  have hfinal : (Except.ok (ms, cursors) : Except String (List Message × List (Option String))) =
      Except.ok
        (([⟨"Unknown â€“ ID u (@Unknown)", "a", "9", "9"⟩,
           ⟨"Unknown â€“ ID u (@Unknown)", "b", "8", "8"⟩,
           ⟨"Unknown â€“ ID u (@Unknown)", "c", "7", "7"⟩] : List Message),
         ([none, some "8"] : List (Option String))) := by
    rw [hms, hcs]
    rfl
  exact heq.trans hfinal

/-- C7: a pagination run that reaches a page with zero messages while its
"has more" flag is true does not loop forever re-issuing the same cursor:
the paginator signals an error (the `[-1]` index on the empty page raises). -/
theorem C7_empty_page_signals_error (fTs : String → String) (users : Users)
    (mid : List Page) (p : Page) (rest : List Page)
    (hmid : ∀ q ∈ mid, q.okFlag = true ∧ q.has_more = true ∧ q.messages ≠ [])
    (hok : p.okFlag = true) (hempty : p.messages = []) (hmore : p.has_more = true) :
    fetch_and_get_messages fTs users (mid ++ p :: rest) =
      Except.error "IndexError: list index out of range" :=
  fetchGo_empty_page_error fTs users mid p rest none hmid hok hempty hmore

theorem C7_empty_page_signals_error_witness :
    fetch_and_get_messages (fun s => s) (fun _ => none) [⟨true, "", [], true⟩] =
      Except.error "IndexError: list index out of range" := by
  have h := C7_empty_page_signals_error (fun s => s) (fun _ => none)
    [] ⟨true, "", [], true⟩ [] (by intro q hq; simp at hq) rfl rfl rfl
  simpa using h

/-- C6: mention rewriting is a no-op (hence idempotent) on every text
containing no mention token, and every mention token whose id is absent from
the user table survives byte-for-byte (as a contiguous substring) in the
output text; the rewriter neither raises nor substitutes a placeholder. -/
theorem C6_unresolved_tokens_kept (users : Users) (text : List Char) :
    (findMentions text = [] →
      replaceMentionsText users text = text ∧
      replaceMentionsText users (replaceMentionsText users text) = text) ∧
    (∀ tok run, (tok, run) ∈ findMentions text → users (String.mk run) = none →
      tok <:+: replaceMentionsText users text) := by
  constructor
  · intro h
    have h1 : replaceMentionsText users text = text := by
      unfold replaceMentionsText
      rw [h]
      rfl
    exact ⟨h1, by rw [h1, h1]⟩
  · intro tok run hmem hnone
    rcases foldl_applyMention_cases users text (findMentions text) text with
      hcase | ⟨tok', run', u', hmem', hsome', hres⟩
    · unfold replaceMentionsText
      rw [hcase]
      exact findMentions_isInfix hmem
    · unfold replaceMentionsText
      rw [hres]
      obtain ⟨htok, _, hw⟩ := findMentions_shape hmem
      obtain ⟨htok', _, hw'⟩ := findMentions_shape hmem'
      have hrr : run ≠ run' := by
        intro he
        rw [← he, hnone] at hsome'
        simp at hsome'
      subst htok
      subst htok'
      exact tokInfixReplaceAll hw hw' hrr text.length text (le_refl _)
        (findMentions_isInfix hmem)

theorem C6_unresolved_tokens_kept_witness :
    replaceMentionsText (fun s => if s = "U2" then some ⟨"bob", "Bob B"⟩ else none)
      ("hello world".data) = "hello world".data ∧
    ("<@U1>".data) <:+:
      replaceMentionsText (fun s => if s = "U2" then some ⟨"bob", "Bob B"⟩ else none)
        ("hi <@U1> and <@U2>".data) := by
  constructor
  · exact ((C6_unresolved_tokens_kept
      (fun s => if s = "U2" then some ⟨"bob", "Bob B"⟩ else none)
      ("hello world".data)).1 (by decide)).1
  · exact (C6_unresolved_tokens_kept
      (fun s => if s = "U2" then some ⟨"bob", "Bob B"⟩ else none)
      ("hi <@U1> and <@U2>".data)).2 ("<@U1>".data) ("U1".data)
      (by decide) (by decide)

/-- C8: the spec scenario — user table built from the member list
`[{id:"U1", name:"bob", display:"", real:"Bob Smith"}]`, raw message
`{user:"U1", text:"hi <@U1>", ts:"1000.5"}` run through message collection
and mention rewriting — yields the Message `{user:"Bob Smith (@bob)",
text:"hi @bob", ts:"1000.5", ts_readable: formatted local time for 1000.5}`
(the timestamp rendering is the abstract formatter applied to "1000.5"). -/
theorem C8_scenario_message (fTs : String → String) :
    (collect_messages fTs (get_users [⟨"U1", "bob", "", "Bob Smith"⟩])
        ⟨true, "", [⟨"U1", "hi <@U1>", "1000.5"⟩], false⟩).map
      (replace_mentions (get_users [⟨"U1", "bob", "", "Bob Smith"⟩])) =
      Except.ok [⟨"Bob Smith (@bob)", "hi @bob", "1000.5", fTs "1000.5"⟩] := by
  rfl

/-- C1 (claim refuted by the code): mention rewriting is claimed to replace
every resolvable mention token even when one text contains several distinct
resolvable ids.  The code replaces inside the stale `text` read before the
loop rather than the updated `message["text"]`, so each successful lookup
discards the previous replacement: with two distinct resolvable ids only the
last one ends up replaced. -/
theorem C1_distinct_mentions_not_all_replaced :
    replace_mentions
      (fun s => if s = "U1" then some ⟨"alice", "Alice A"⟩
                else if s = "U2" then some ⟨"bob", "Bob B"⟩ else none)
      [⟨"x", "hi <@U1> and <@U2>", "1", "1"⟩] =
      [⟨"x", "hi <@U1> and @bob", "1", "1"⟩] ∧
    replace_mentions
      (fun s => if s = "U1" then some ⟨"alice", "Alice A"⟩
                else if s = "U2" then some ⟨"bob", "Bob B"⟩ else none)
      [⟨"x", "hi <@U1> and <@U2>", "1", "1"⟩] ≠
      [⟨"x", "hi @alice and @bob", "1", "1"⟩] := by
  constructor
  · rfl
  · decide

end SlackExporter
